import Mathlib

/-!
Verification of the proof-of-reserves core (`por_v2`) against its
natural-language specification.

The development shallowly embeds the value-level semantics of the Rust
sources:

* `src/config.rs` — compile-time constants;
* `src/utils/circuit_helper.rs` — the `is_negative` sign gadget;
* `src/utils/helper_utils.rs` — `hash_account` and `hash_n_subhashes`;
* `src/circuits/batch_circuit.rs` — the batch circuit constraint system
  and `prove_batch_circuit`;
* `src/merkle_tree.rs` — `Node`, `MerkleTree`, `new_from_leafs`,
  `get_nth_leaf_path`, `verify`, `prove_inclusion`;
* `src/types.rs` — `MerkleProof` and
  `InclusionProof::calculate_merkle_root_hash`;
* `src/lib.rs` — `assert_config`.

The zk-SNARK backend (plonky2) is external to the repository: the spec
treats it as a supplied library with a prime field, a Poseidon-like hash,
and a prover whose proof generation succeeds exactly when the witness
satisfies the circuit's constraints.  Accordingly the Poseidon hash is a
function parameter of every definition that uses it (written `hashFn` or
`hashB`), and proof generation is embedded as satisfaction of the
constraint system that the circuit-building code lays down.

Rust `panic!`-style aborts (failed `unwrap`, out-of-bounds indexing,
failed `assert!`) are embedded as the `Res.crash` constructor.
-/

set_option maxRecDepth 1000000

namespace PorV2

/-- Outcome of a Rust computation: `crash` models a process abort
(`unwrap` on `None`/`Err`, slice index out of bounds, failed `assert!`),
while `ok` carries the returned value. -/
inductive Res (α : Type) where
  | crash
  | ok (a : α)
deriving Repr, DecidableEq

/-! ## Configuration constants (`src/config.rs`) -/

/-- Order of the Goldilocks field used by plonky2: `2^64 - 2^32 + 1`. -/
abbrev GOLDILOCKS_P : Nat := 18446744069414584321

/-- Constant `BATCH_SIZE` from `config.rs`. -/
abbrev BATCH_SIZE : Nat := 512

/-- Constant `RECURSIVE_SIZE` from `config.rs`. -/
abbrev RECURSIVE_SIZE : Nat := 8

/-- The Goldilocks field `F`. -/
abbrev F := ZMod GOLDILOCKS_P

/-- Constant `half = (p - 1) / 2`: canonical values in `[0, HALF]` encode
non-negative integers, values in `(HALF, p-1]` encode negatives. -/
abbrev HALF : Nat := (GOLDILOCKS_P - 1) / 2

/-- Constant `MAX_ACCOUNT_BALANCE = (F::ORDER - 1) / 2 / BATCH_SIZE` from `config.rs`. -/
abbrev MAX_ACCOUNT_BALANCE : Nat := (GOLDILOCKS_P - 1) / 2 / BATCH_SIZE

/-- Constant `MAX_ACCOUNT_BALANCE_BITS = MAX_ACCOUNT_BALANCE.ilog2()` from `config.rs`. -/
abbrev MAX_ACCOUNT_BALANCE_BITS : Nat := Nat.log2 MAX_ACCOUNT_BALANCE

/-! ## Field embeddings

`GoldilocksField::from_canonical_u64` reduces a `u64` mod `p`;
`GoldilocksField::from_noncanonical_i64` embeds an `i64` sending a
negative `x` to `p - |x|`.  Both are the canonical ring casts. -/

/-- Embedding `GoldilocksField::from_canonical_u64`. -/
def from_canonical_u64 (x : Nat) : F := x

/-- Embedding `GoldilocksField::from_noncanonical_i64`. -/
def from_noncanonical_i64 (x : Int) : F := x

/-! ## Sign gadget (`src/utils/circuit_helper.rs`)

The circuit computes `divided = builder.div(x, min_neg)` — plonky2 field
division, i.e. multiplication by the field inverse — and then
`is_equal(divided, one)`.  We embed the value the boolean wire takes. -/

/-- The constant `9223372034707292161 = (p+1)/2 = HALF + 1` that
`is_negative` divides by (named `min_neg` in the source). -/
def min_neg : F := 9223372034707292161

/-- Value of the boolean wire produced by `is_negative`:
`x * min_neg⁻¹ == 1` in `F`. -/
def is_negative (x : F) : Bool := decide (x * min_neg⁻¹ = 1)

/-- Value of the boolean wire produced by `is_positive`
(`builder.not` of `is_negative`). -/
def is_positive (x : F) : Bool := ! is_negative x

/-! ## Leaf hasher (`src/utils/helper_utils.rs::hash_account`)

The source builds `hash_input` from the balances, separately builds
`hash_input_hex` by splitting the userhash into 16-hex-character words
(`u64::from_str_radix(_, 16).unwrap()`), pushes the nonce onto
`hash_input`, and hashes `hash_input`.  Note that `hash_input_hex` is
never appended to `hash_input`. -/

/-- Value of a hex digit, as accepted by `u64::from_str_radix(_, 16)`
(both lowercase and uppercase letters are valid). -/
def hexDigitVal (c : Char) : Option Nat :=
  if '0' ≤ c ∧ c ≤ '9' then some (c.toNat - 48)
  else if 'a' ≤ c ∧ c ≤ 'f' then some (c.toNat - 87)
  else if 'A' ≤ c ∧ c ≤ 'F' then some (c.toNat - 55)
  else none

/-- Parser `u64::from_str_radix(s, 16)`: an optional leading `+`, then at least
one hex digit.  Overflow is impossible here because the callers pass
exactly 16 digits, whose maximal value is `2^64 - 1`. -/
def parseHexU64 (cs : List Char) : Option Nat :=
  let ds := match cs with
    | '+' :: rest => rest
    | _ => cs
  match ds with
  | [] => none
  | _ =>
    ds.foldl (fun acc c =>
      match acc, hexDigitVal c with
      | some a, some d => some (a * 16 + d)
      | _, _ => none) (some 0)

/-- Fueled worker for `splitIntoWords`; the fuel is an upper bound on the
number of 16-character chunks and only serves termination. -/
def splitWordsGo : Nat → List Char → Option (List Nat)
  | _, [] => some []
  | 0, _ :: _ => none
  | fuel + 1, c :: cs =>
    let l := c :: cs
    if 16 ≤ l.length then
      match parseHexU64 (l.take 16), splitWordsGo fuel (l.drop 16) with
      | some w, some ws => some (w :: ws)
      | _, _ => none
    else none

/-- The loop `for i in (0..userhash.len()).step_by(16)` of `hash_account`:
slice the string into 16-character words and parse each as hex.
`none` models the panics (slice out of bounds when the length is not a
multiple of 16, `unwrap` of a failed parse). -/
def splitIntoWords (cs : List Char) : Option (List Nat) := splitWordsGo cs.length cs

/-- Function `hash_account(balances, userhash, nonce)` from `helper_utils.rs`,
with the external Poseidon sponge abstracted as `hashFn`.  The source
computes `hash_input_hex` from the userhash but never appends it to
`hash_input`; the embedding mirrors this faithfully. -/
def hash_account {α : Type} (hashFn : List F → α) (balances : List Int)
    (userhash : String) (nonce : Nat) : Res α :=
  let hash_input := balances.map from_noncanonical_i64
  match splitIntoWords userhash.data with
  | none => .crash
  | some _hash_input_hex =>
    .ok (hashFn (hash_input ++ [from_canonical_u64 nonce]))

/-! ## Batch circuit (`src/circuits/batch_circuit.rs`)

`BatchCircuit::new` lays down, for each of the `BATCH_SIZE` accounts:

* `equity = fold mul_add(balance, price, acc) from 0`, then
  `builder.range_check(account.equity, 62)` — the canonical value of the
  equity must fit in 62 bits;
* for each asset, a running sum with, at each addition, the constraint
  `assert_bool(is_equal(new_sum - sum, balance))`;
* the per-asset totals and the Poseidon hash of the leaf-hash wires are
  routed to public inputs (these are computed from the witness and
  impose no further constraint on it).

Proof generation succeeds exactly when the witness satisfies every
constraint. -/

/-- The account equity: `fold (acc, (balance, price)) => balance * price + acc`
over the zipped balances and prices, starting from `builder.zero()`. -/
def equityF (balances prices : List F) : F :=
  (balances.zip prices).foldl (fun acc bv => bv.1 * bv.2 + acc) 0

/-- Value of the `builder.is_equal(x, y)` boolean wire. -/
def is_equal_val (x y : F) : F := if x = y then 1 else 0

/-- The constraint added by `builder.assert_bool(b)`: `b * (b - 1) == 0`. -/
def assert_bool_holds (b : F) : Bool := decide (b * (b - 1) = 0)

/-- The per-addition overflow check of the batch circuit:
`new_sum = balance + sum`, `diff = new_sum - sum`,
`assert_bool(is_equal(diff, balance))`. -/
def not_overflowed_check (sum b : F) : Bool :=
  assert_bool_holds (is_equal_val ((b + sum) - sum) b)

/-- The per-asset running sum loop of `BatchCircuit::new`: conjunction of
the overflow checks along the fold. -/
def assetSumGo : List F → F → Bool
  | [], _ => true
  | b :: rest, sum => not_overflowed_check sum b && assetSumGo rest (b + sum)

/-- Satisfaction of the batch circuit's constraints by a witness
(prices and per-account balances, all already embedded in `F`):
the 62-bit range check on each account's equity, and the per-asset
overflow checks. -/
def batchConstraintsB (asset_count : Nat) (prices : List F)
    (balances : List (List F)) : Bool :=
  balances.all (fun a => (equityF a prices).val < 2 ^ 62) &&
  (List.range asset_count).all
    (fun i => assetSumGo (balances.map (fun a => a.getD i 0)) 0)

/-- Prover entry `BatchCircuit::prove_batch_circuit(asset_prices, accounts, leaf_hashes)`.
The `assert!` on the account count and the shape requirements of
`set_target_arr` / `leaf_hashes[i]` abort (`crash`); otherwise plonky2's
`prove` returns a proof (`ok true`) exactly when the witness satisfies
the constraints, and an error (`ok false`) otherwise.  Leaf-hash wires
are free witnesses, so `leaf_hashes` does not influence satisfaction. -/
def prove_batch_circuit (asset_count : Nat) (asset_prices : List Nat)
    (accounts : List (List Int)) (leaf_hashes : List (List F)) : Res Bool :=
  if accounts.length ≠ BATCH_SIZE then .crash
  else if ¬ (accounts.all (fun a => a.length = asset_count)
      ∧ asset_prices.length = asset_count
      ∧ BATCH_SIZE ≤ leaf_hashes.length) then .crash
  else
    .ok (batchConstraintsB asset_count (asset_prices.map from_canonical_u64)
      (accounts.map (fun a => a.map from_noncanonical_i64)))

/-! ## `assert_config` (`src/lib.rs`)

Each mismatch only executes `log_error!` (an `eprintln!`) and falls
through; the function always returns.  The expected prover version is
`format!("v{}", env!("CARGO_PKG_VERSION"))`; the crate version string is
passed as a parameter since the manifest is not part of the sources.
The `prover_version` field is the one `prove_global` stores in the
`FinalProof` it assembles. -/

/-- The fields of `FinalProof` that `assert_config` reads. -/
structure FinalProof where
  batch_size : Nat
  recursive_size : Nat
  prover_version : String

/-- Function `assert_config(final_proof)`: returns the list of warning messages it
logs; it has no abort path. -/
def assert_config (pkg_version : String) (fp : FinalProof) : Res (List String) :=
  let w1 := if fp.batch_size ≠ BATCH_SIZE then ["Batch size mismatch!"] else []
  let w2 := if fp.recursive_size ≠ RECURSIVE_SIZE then ["Recursive size mismatch!"] else []
  let w3 := if fp.prover_version ≠ "v" ++ pkg_version then ["Prover version mismatch!"] else []
  .ok (w1 ++ w2 ++ w3)

/-! ## Merkle tree (`src/merkle_tree.rs`)

`Node { hash: Option<Vec<u8>>, children: Option<Vec<Node>> }`.  Hashes
are byte vectors (`Vec<u8>`), embedded as `List Nat`.  The composite
`hash_n_subhashes ∘ to_bytes` map — bytes of the children decoded to
field elements, Poseidon-hashed, re-encoded to 32 bytes — is abstracted
as a function parameter `hashB : List (List Nat) → List Nat`. -/

/-- Structure `merkle_tree.rs::Node`. -/
inductive Node where
  | mk (hash : Option (List Nat)) (children : Option (List Node))
deriving Repr

/-- Field accessor `Node::hash`. -/
def Node.hash : Node → Option (List Nat)
  | .mk h _ => h

/-- Field accessor for the `children` of a `Node`. -/
def Node.children : Node → Option (List Node)
  | .mk _ c => c

/-- Structure `merkle_tree.rs::MerkleTree`. -/
structure MerkleTree where
  root : Node
  depth : Nat
deriving Repr

/-- Fueled worker for `chunksOf` (Rust `slice::chunks(k)`); the fuel is
an upper bound on the number of chunks and only serves termination. -/
def chunksGo (k : Nat) : Nat → List Node → List (List Node)
  | _, [] => []
  | 0, _ :: _ => []
  | fuel + 1, c :: cs => (c :: cs).take k :: chunksGo k fuel ((c :: cs).drop k)

/-- Rust `slice::chunks(k)`: split into consecutive chunks of length `k`,
the last one possibly shorter. -/
def chunksOf (k : Nat) (l : List Node) : List (List Node) := chunksGo k l.length l

/-- Fueled worker for `new_from_leafs`.  Each recursive step consumes one
unit of fuel; `new_from_leafs` supplies enough fuel for any input (the
recursion shrinks the node list except on the empty list, on which the
source recurses forever — that case exhausts the fuel). -/
def new_from_leafs_go : Nat → List Node → Nat → Bool → MerkleTree
  | 0, _, depth, _ => ⟨.mk none none, depth⟩
  | fuel + 1, leafs, depth, batch =>
    let chunks := chunksOf (if batch then BATCH_SIZE else RECURSIVE_SIZE) leafs
    let padded_nodes : List Node :=
      if chunks.length % RECURSIVE_SIZE ≠ 0 then
        List.replicate (RECURSIVE_SIZE - chunks.length % RECURSIVE_SIZE) (.mk none none)
      else []
    let nodes := chunks.map fun c => Node.mk none (some c)
    if h : nodes.length = 1 ∧ batch = false then
      ⟨nodes.head (by intro hx; rw [hx] at h; exact absurd h.1 (by decide)), depth + 1⟩
    else
      new_from_leafs_go fuel (nodes ++ padded_nodes) (depth + 1) false

/-- Builder `MerkleTree::new_from_leafs(leafs, depth, batch)`: chunk the current
level (`BATCH_SIZE` wide on the first, batch, level, `RECURSIVE_SIZE`
above), append `Node::new(None)` padding up to a multiple of
`RECURSIVE_SIZE`, and recurse until a single non-batch node remains. -/
def new_from_leafs (leafs : List Node) (depth : Nat) (batch : Bool) : MerkleTree :=
  new_from_leafs_go (leafs.length + 2) leafs depth batch

/-- The descent loop of `get_nth_leaf_path`, structurally recursive on
the number of remaining iterations (`remaining = depth - current_depth`,
so the node width is `RECURSIVE_SIZE ^ (remaining - 1) * BATCH_SIZE`).
Returns the collected indices and the final `start_position`; `crash`
models the `unwrap` on childless nodes and out-of-bounds indexing. -/
def nthLeafAux : Node → Nat → Nat → Nat → Res (List Nat × Nat)
  | _, _, start, 0 => .ok ([], start)
  | node, n, start, remaining + 1 =>
    let node_leafs := RECURSIVE_SIZE ^ remaining * BATCH_SIZE
    let index := (n - start) / node_leafs
    match node.children with
    | none => .crash
    | some cs =>
      if h : index < cs.length then
        match nthLeafAux (cs.get ⟨index, h⟩) n (start + index * node_leafs) remaining with
        | .ok (p, st) => .ok (index :: p, st)
        | .crash => .crash
      else .crash

/-- Function `MerkleTree::get_nth_leaf_path(n)`: run the descent loop for
`depth - 1` iterations, append the final leaf index, and return `Some`
exactly when the collected path has length `depth`. -/
def get_nth_leaf_path (t : MerkleTree) (n : Nat) : Res (Option (List Nat)) :=
  match nthLeafAux t.root n 0 (t.depth - 1) with
  | .crash => .crash
  | .ok (p, start) =>
    let path := p ++ [n - start]
    .ok (if path.length = t.depth then some path else none)

/-- Function `MerkleTree::verify_recursive(root_node)`.  The source iterates over
the children calling `verify_recursive(child)` but discards every
returned value, so the result only reflects the root node itself: a
childless node verifies; otherwise the node's hash must be present and
equal to `hashB` of the children's present hashes (`filter_map`). -/
def verify_recursive (hashB : List (List Nat) → List Nat) (root_node : Node) : Bool :=
  match root_node.children with
  | none => true
  | some children =>
    match root_node.hash with
    | none => false
    | some h =>
      let children_hashes := children.filterMap Node.hash
      h = hashB children_hashes

/-- Function `MerkleTree::verify()`. -/
def verify (hashB : List (List Nat) → List Nat) (t : MerkleTree) : Bool :=
  verify_recursive hashB t.root

/-- Structure `types.rs::MerkleProof { left_hashes, right_hashes, parent_hashes }`. -/
inductive MerkleProof where
  | mk (left_hashes right_hashes : List (List Nat)) (parent_hashes : Option MerkleProof)
deriving Repr

/-- Function `InclusionProof::calculate_merkle_root_hash(leaf_hash)`: at each
level hash `left_hashes ++ [current] ++ right_hashes` and move to the
parent. -/
def calculate_merkle_root_hash (hashB : List (List Nat) → List Nat) :
    MerkleProof → List Nat → List Nat
  | .mk left right parent, current =>
    let h := hashB (left ++ current :: right)
    match parent with
    | none => h
    | some p => calculate_merkle_root_hash hashB p h

/-- The per-level body of `prove_inclusion`: collect every child's hash,
`unwrap`ping each (`crash` when one is missing). -/
def allChildHashes : List Node → Option (List (List Nat))
  | [] => some []
  | n :: ns =>
    match n.hash, allChildHashes ns with
    | some h, some hs => some (h :: hs)
    | _, _ => none

/-- The loop of `MerkleTree::prove_inclusion`: descend along `indices`
(the path entries from position 1 on), splitting the sibling hashes
around each index and chaining the previously built proof as the parent.
Crashes on a childless node, a missing sibling hash, or an out-of-range
index, as the source's `unwrap`s and slicings do. -/
def proveInclusionGo (node : Node) (indices : List Nat)
    (acc : Option MerkleProof) : Res (Option MerkleProof) :=
  match indices with
  | [] => .ok acc
  | idx :: rest =>
    match node.children with
    | none => .crash
    | some nodes =>
      match allChildHashes nodes with
      | none => .crash
      | some hashes =>
        if h : idx < nodes.length then
          proveInclusionGo (nodes.get ⟨idx, h⟩) rest
            (some (.mk (hashes.take idx) (hashes.drop (idx + 1)) acc))
        else .crash

/-- Function `MerkleTree::prove_inclusion(path)`: the loop runs `path.len() - 1`
times using `path[i + 1]`, i.e. it consumes the path's tail; the final
`merkle_proof.unwrap()` crashes when no level was processed (and an
empty path crashes on its own). -/
def prove_inclusion (t : MerkleTree) (path : List Nat) : Res MerkleProof :=
  match path with
  | [] => .crash
  | _ :: rest =>
    match proveInclusionGo t.root rest none with
    | .crash => .crash
    | .ok none => .crash
    | .ok (some mp) => .ok mp

/-! ## Specification-side predicates for the Merkle claims -/

/-- Modelled from the spec: a tree is well hashed when "for every
internal node with children, `node.hash == Poseidon(concat(child_hashes))`"
— every node that has children carries a hash equal to `hashB` of its
children's hashes (all of which are present). -/
inductive WellHashed (hashB : List (List Nat) → List Nat) : Node → Prop where
  | leaf (h : Option (List Nat)) : WellHashed hashB (.mk h none)
  | node (h : Option (List Nat)) (cs : List Node) (hs : List (List Nat))
      (hch : allChildHashes cs = some hs)
      (hh : h = some (hashB hs))
      (hrec : ∀ c ∈ cs, WellHashed hashB c) :
      WellHashed hashB (.mk h (some cs))

/-- Predicate `pathToLeafB node indices target`: following `indices` down from
`node` stays in bounds and reaches a node whose hash is `target`. -/
def pathToLeafB : Node → List Nat → List Nat → Bool
  | node, [], target => node.hash = some target
  | node, idx :: rest, target =>
    match node.children with
    | none => false
    | some cs =>
      if h : idx < cs.length then pathToLeafB (cs.get ⟨idx, h⟩) rest target
      else false

/-- Fold a hash up an optional `MerkleProof` chain: the identity when the
chain is empty. -/
def calcOpt (hashB : List (List Nat) → List Nat) :
    Option MerkleProof → List Nat → List Nat
  | none, h => h
  | some mp, h => calculate_merkle_root_hash hashB mp h

/-! ## Concrete instances used by counterexamples and witnesses -/

/-- A stand-in for the abstract tree-level hash in closed statements:
any concrete function will do, since the general theorems quantify over
`hashB`. -/
def testHash (hs : List (List Nat)) : List Nat :=
  List.replicate 31 0 ++ [hs.length % 256]

/-- A leaf node carrying a 32-byte hash. -/
def leafNode : Node := .mk (some (List.replicate 31 0 ++ [3])) none

/-- The skeleton `new_from_leafs` builds for one full batch of leaves. -/
def b512 : MerkleTree := new_from_leafs (List.replicate 512 leafNode) 1 true

/-- A childless padding sibling carrying a hash, as the pipeline's
empty-proof population produces. -/
def padNode : Node := .mk (some (List.replicate 31 0 ++ [9])) none

/-- One full batch node whose hash is `testHash` of its 512 leaf hashes. -/
def batchNode : Node :=
  .mk (some (List.replicate 32 0)) (some (List.replicate 512 leafNode))

/-- A fully hashed single-batch tree of depth 3, shaped like the pipeline
output: the root's children are the batch node and 7 padding nodes. -/
def b512Hashed : MerkleTree :=
  ⟨.mk (some (List.replicate 31 0 ++ [8])) (some (batchNode :: List.replicate 7 padNode)),
   3⟩

/-- A depth-3 chain whose middle node's hash is wrong: the root hashes
correctly over its child, but the middle node does not hash its own
child. -/
def midNode : Node :=
  .mk (some (List.replicate 31 0 ++ [5])) (some [.mk (some (List.replicate 32 0)) none])

/-- Tree whose only internal node below the root carries a wrong hash. -/
def badMidTree : MerkleTree :=
  ⟨.mk (some (List.replicate 31 0 ++ [1])) (some [midNode]), 3⟩

/-- A batch witness whose first account holds `MAX_ACCOUNT_BALANCE + 1`
of the single asset; the remaining 511 accounts are zero. -/
def overMaxAccounts : List (List Int) :=
  [(18014398505287681 : Int)] :: List.replicate 511 [0]

/-- A batch witness whose first account holds `2^53` of the single
asset; with price `512` its equity is exactly `2^62`. -/
def posEquityAccounts : List (List Int) :=
  [(9007199254740992 : Int)] :: List.replicate 511 [0]

/-- Arbitrary leaf hashes for a full batch (the leaf-hash wires are free
witnesses). -/
def zeroLeafHashes : List (List F) := List.replicate 512 ([] : List F)

/-! # Theorems -/

/-! ## Helper lemmas -/

theorem sub_add_cancel_F (sum b : F) : (b + sum) - sum = b := by ring

theorem not_overflowed_check_true (sum b : F) : not_overflowed_check sum b = true := by
  unfold not_overflowed_check is_equal_val assert_bool_holds
  rw [if_pos (sub_add_cancel_F sum b)]
  decide

theorem assetSumGo_true (col : List F) : ∀ s : F, assetSumGo col s = true := by
  induction col with
  | nil => intro s; rfl
  | cons b rest ih =>
    intro s
    simp [assetSumGo, not_overflowed_check_true, ih]

theorem batchConstraintsB_iff (asset_count : Nat) (prices : List F)
    (balances : List (List F)) :
    batchConstraintsB asset_count prices balances = true ↔
      ∀ a ∈ balances, (equityF a prices).val < 2 ^ 62 := by
  unfold batchConstraintsB
  simp [List.all_eq_true, assetSumGo_true]

theorem min_neg_mul_two : (min_neg * 2 : F) = 1 := by decide

theorem min_neg_inv_eq_two : (min_neg⁻¹ : F) = 2 := by
  have hg : min_neg * min_neg⁻¹ = 1 := by
    rw [ZMod.mul_inv_eq_gcd]
    have h1 : Nat.gcd (ZMod.val min_neg) GOLDILOCKS_P = 1 := by decide
    rw [h1, Nat.cast_one]
  calc (min_neg⁻¹ : F) = (min_neg * 2) * min_neg⁻¹ := by rw [min_neg_mul_two, one_mul]
    _ = 2 * (min_neg * min_neg⁻¹) := by ring
    _ = 2 := by rw [hg, mul_one]

/-! ## Claim theorems -/

/-- Claim C2: the spec states that the `is_negative` gadget declares a
field element negative exactly when its canonical value lies in
`{HALF+1, …, p-1}`.  The code divides in the field, so the wire is 1
exactly when `x` equals `HALF + 1` itself; the value `HALF + 2`, which
is negative per the spec, is declared non-negative. -/
theorem is_negative_gadget_characterization :
    (∀ x : F, is_negative x = true ↔ x = min_neg) ∧
    is_negative (9223372034707292162 : F) = false ∧
    HALF < ZMod.val (9223372034707292162 : F) := by
  have hchar : ∀ x : F, is_negative x = true ↔ x = min_neg := by
    intro x
    unfold is_negative
    rw [min_neg_inv_eq_two, decide_eq_true_iff]
    constructor
    · intro h
      calc x = x * (min_neg * 2) := by rw [min_neg_mul_two, mul_one]
        _ = (x * 2) * min_neg := by ring
        _ = min_neg := by rw [h, one_mul]
    · intro h
      rw [h, min_neg_mul_two]
  refine ⟨hchar, ?_, by decide⟩
  rw [Bool.eq_false_iff]
  intro h
  have := (hchar _).mp h
  revert this
  decide

/-- Claim C9: the overflow constraint added in the batch circuit's
per-asset summation is vacuous: `(sum + b) - sum` equals `b` identically
in `F`, so the `is_equal`/`assert_bool` check is satisfied by every
witness assignment and the whole running-sum check always holds. -/
theorem overflow_check_vacuous :
    (∀ sum b : F, (b + sum) - sum = b ∧ not_overflowed_check sum b = true) ∧
    (∀ (col : List F) (s : F), assetSumGo col s = true) :=
  ⟨fun sum b => ⟨sub_add_cancel_F sum b, not_overflowed_check_true sum b⟩,
   fun col s => assetSumGo_true col s⟩

/-- Claim C10: `assert_config` never aborts: for every final proof it
returns normally with a list of warning messages, and that list is
empty exactly when batch size, recursive size and prover version all
match the compiled-in configuration.  A mismatch is only logged. -/
theorem assert_config_never_aborts :
    ∀ (v : String) (fp : FinalProof), ∃ ws, assert_config v fp = .ok ws ∧
      (ws = [] ↔ fp.batch_size = BATCH_SIZE ∧ fp.recursive_size = RECURSIVE_SIZE ∧
        fp.prover_version = "v" ++ v) := by
  intro v fp
  refine ⟨_, rfl, ?_⟩
  split_ifs with h1 h2 h3 <;> simp_all

/-- Claim C1: the spec states that `hash_account` hashes the balances,
the userhash words and the nonce.  The code computes the userhash words
but never appends them to the hash input, so the digest is entirely
independent of the userhash: any two userhashes that parse successfully
(same or different) give the same digest, whatever the hash function. -/
theorem hash_account_ignores_userhash {α : Type} (hashFn : List F → α)
    (balances : List Int) (nonce : Nat) (u1 u2 : String) (ws1 ws2 : List Nat)
    (h1 : splitIntoWords u1.data = some ws1)
    (h2 : splitIntoWords u2.data = some ws2) :
    hash_account hashFn balances u1 nonce = hash_account hashFn balances u2 nonce := by
  unfold hash_account
  rw [h1, h2]

/-- Witness for C1: two concrete distinct userhashes with equal balances
and nonce yield byte-for-byte the same digest. -/
theorem hash_account_ignores_userhash_witness :
    ("0000000000000000" : String) ≠ "ffffffffffffffff" ∧
    hash_account (fun l => l) [0] "0000000000000000" 0
      = hash_account (fun l => l) [0] "ffffffffffffffff" 0 :=
  ⟨by decide,
   hash_account_ignores_userhash (fun l => l) [0] 0 "0000000000000000" "ffffffffffffffff"
     [0] [18446744073709551615] (by decide) (by decide)⟩

/-- Claim C3 counterexample: the spec states that every balance is
range-checked to `MAX_ACCOUNT_BALANCE_BITS` bits, so a witness holding
`MAX_ACCOUNT_BALANCE + 1` of an asset must fail to prove.  With the
asset price 0 the equity of every account is 0, all circuit constraints
hold, and proving succeeds. -/
theorem no_balance_range_check_counterexample :
    (∃ a ∈ overMaxAccounts, ∃ b ∈ a, MAX_ACCOUNT_BALANCE < b.natAbs) ∧
    prove_batch_circuit 1 [0] overMaxAccounts zeroLeafHashes = .ok true :=
  ⟨by decide, by decide⟩

/-- Claim C3 (amended): the batch circuit imposes no range check on
individual balances; its only range constraint is the 62-bit check on
each account's equity.  Whenever every account's equity has canonical
value below `2^62`, proving succeeds regardless of balance
magnitudes. -/
theorem batch_equity_range_check_only (asset_count : Nat) (asset_prices : List Nat)
    (accounts : List (List Int)) (leaf_hashes : List (List F))
    (hlen : accounts.length = BATCH_SIZE)
    (hsh : accounts.all (fun a => a.length = asset_count) = true)
    (hp : asset_prices.length = asset_count)
    (hlh : BATCH_SIZE ≤ leaf_hashes.length)
    (heq : ∀ a ∈ accounts,
      (equityF (a.map from_noncanonical_i64)
        (asset_prices.map from_canonical_u64)).val < 2 ^ 62) :
    prove_batch_circuit asset_count asset_prices accounts leaf_hashes = .ok true := by
  unfold prove_batch_circuit
  rw [if_neg (by simp [hlen]), if_neg (not_not_intro ⟨hsh, hp, hlh⟩)]
  have hb : batchConstraintsB asset_count (asset_prices.map from_canonical_u64)
      (accounts.map (fun a => a.map from_noncanonical_i64)) = true := by
    rw [batchConstraintsB_iff]
    intro a ha
    obtain ⟨a0, ha0, rfl⟩ := List.mem_map.mp ha
    exact heq a0 ha0
  rw [hb]

/-- Witness for the amended C3: a batch whose first balance exceeds
`MAX_ACCOUNT_BALANCE` proves successfully when the price is zero. -/
theorem batch_equity_range_check_only_witness :
    prove_batch_circuit 1 [0] overMaxAccounts zeroLeafHashes = .ok true :=
  batch_equity_range_check_only 1 [0] overMaxAccounts zeroLeafHashes
    (by decide) (by decide) (by decide) (by decide) (by decide)

/-- Claim C4 counterexample: the spec states that a batch whose accounts
all have non-negative equity and in-range balances proves successfully.
The concrete batch below has every balance within
`MAX_ACCOUNT_BALANCE`, every equity non-negative (canonical value at
most `HALF`; the first account's equity is exactly `2^62`), yet proving
fails because of the 62-bit range check on the equity. -/
theorem batch_positive_equity_fails_counterexample :
    (∀ a ∈ posEquityAccounts, ∀ b ∈ a, b.natAbs ≤ MAX_ACCOUNT_BALANCE) ∧
    (∀ a ∈ posEquityAccounts,
      (equityF (a.map from_noncanonical_i64)
        ([512].map from_canonical_u64)).val ≤ HALF) ∧
    prove_batch_circuit 1 [512] posEquityAccounts zeroLeafHashes = .ok false :=
  ⟨by decide, by decide, by decide⟩

/-- Claim C4 (amended): for a well-shaped batch witness, proving
succeeds if and only if every account's equity (computed in the field
after the signed embeddings) has canonical value below `2^62`; in
particular any account with negative equity (canonical value above
`HALF`) makes proving fail. -/
theorem batch_prove_succeeds_iff_equity_in_range (asset_count : Nat)
    (asset_prices : List Nat) (accounts : List (List Int)) (leaf_hashes : List (List F))
    (hlen : accounts.length = BATCH_SIZE)
    (hsh : accounts.all (fun a => a.length = asset_count) = true)
    (hp : asset_prices.length = asset_count)
    (hlh : BATCH_SIZE ≤ leaf_hashes.length) :
    (prove_batch_circuit asset_count asset_prices accounts leaf_hashes = .ok true ↔
      ∀ a ∈ accounts,
        (equityF (a.map from_noncanonical_i64)
          (asset_prices.map from_canonical_u64)).val < 2 ^ 62) ∧
    ((∃ a ∈ accounts, HALF <
        (equityF (a.map from_noncanonical_i64)
          (asset_prices.map from_canonical_u64)).val) →
      prove_batch_circuit asset_count asset_prices accounts leaf_hashes ≠ .ok true) := by
  have hiff : prove_batch_circuit asset_count asset_prices accounts leaf_hashes = .ok true ↔
      ∀ a ∈ accounts,
        (equityF (a.map from_noncanonical_i64)
          (asset_prices.map from_canonical_u64)).val < 2 ^ 62 := by
    unfold prove_batch_circuit
    rw [if_neg (by simp [hlen]), if_neg (not_not_intro ⟨hsh, hp, hlh⟩)]
    constructor
    · intro h
      have hb : batchConstraintsB asset_count (asset_prices.map from_canonical_u64)
          (accounts.map (fun a => a.map from_noncanonical_i64)) = true := by
        injection h
      intro a ha
      exact (batchConstraintsB_iff _ _ _).mp hb _ (List.mem_map_of_mem _ ha)
    · intro h
      have hb : batchConstraintsB asset_count (asset_prices.map from_canonical_u64)
          (accounts.map (fun a => a.map from_noncanonical_i64)) = true := by
        rw [batchConstraintsB_iff]
        intro a ha
        obtain ⟨a0, ha0, rfl⟩ := List.mem_map.mp ha
        exact h a0 ha0
      rw [hb]
  refine ⟨hiff, ?_⟩
  rintro ⟨a, ha, hgt⟩ hcontra
  have hlt := hiff.mp hcontra a ha
  have hle : 2 ^ 62 ≤ HALF := by decide
  omega

/-- Witness for the amended C4: the `2^62`-equity batch instantiates the
equivalence, and its failure is certified by the right-hand side being
false there. -/
theorem batch_prove_succeeds_iff_equity_in_range_witness :
    (prove_batch_circuit 1 [512] posEquityAccounts zeroLeafHashes = .ok true ↔
      ∀ a ∈ posEquityAccounts,
        (equityF (a.map from_noncanonical_i64)
          ([512].map from_canonical_u64)).val < 2 ^ 62) ∧
    ((∃ a ∈ posEquityAccounts, HALF <
        (equityF (a.map from_noncanonical_i64)
          ([512].map from_canonical_u64)).val) →
      prove_batch_circuit 1 [512] posEquityAccounts zeroLeafHashes ≠ .ok true) :=
  batch_prove_succeeds_iff_equity_in_range 1 [512] posEquityAccounts zeroLeafHashes
    (by decide) (by decide) (by decide) (by decide)

/-- Claim C5: the spec states that `verify` checks every internal node's
Poseidon hash, so a wrong hash strictly below the root must make it
return false.  `verify_recursive` discards the result of its recursive
calls, so only the root is checked: the tree below has a root that
hashes its child correctly while that child's own hash is wrong, yet
`verify` returns true — the tree is not well hashed. -/
theorem verify_ignores_subtree :
    verify testHash badMidTree = true ∧ ¬ WellHashed testHash badMidTree.root := by
  refine ⟨by decide, ?_⟩
  intro h
  rw [show badMidTree.root
      = Node.mk (some (List.replicate 31 0 ++ [1])) (some [midNode]) from rfl] at h
  cases h with
  | node h cs hs hch hh hrec =>
    have hmid : WellHashed testHash midNode := hrec midNode (by simp)
    rw [show midNode = Node.mk (some (List.replicate 31 0 ++ [5]))
        (some [Node.mk (some (List.replicate 32 0)) none]) from rfl] at hmid
    cases hmid with
    | node h2 cs2 hs2 hch2 hh2 hrec2 =>
      have h4 : allChildHashes [Node.mk (some (List.replicate 32 0)) none]
          = some [List.replicate 32 0] := rfl
      rw [h4] at hch2
      injection hch2 with h5
      rw [← h5] at hh2
      exact absurd hh2 (by decide)

theorem nthLeafAux_length_ok :
    ∀ (rem : Nat) (node : Node) (n start : Nat) (p : List Nat) (st : Nat),
      nthLeafAux node n start rem = .ok (p, st) → p.length = rem := by
  intro rem
  induction rem with
  | zero =>
    intro node n start p st h
    simp only [nthLeafAux] at h
    injection h with h2
    rw [show p = ([] : List Nat) from congrArg Prod.fst h2.symm]
    rfl
  | succ rem ih =>
    intro node n start p st h
    cases node with
    | mk h0 ch0 =>
    cases ch0 with
    | none =>
      simp only [nthLeafAux, Node.children] at h
      exact Res.noConfusion h
    | some cs =>
      simp only [nthLeafAux, Node.children] at h
      by_cases hlt : (n - start) / (RECURSIVE_SIZE ^ rem * BATCH_SIZE) < cs.length
      · rw [dif_pos hlt] at h
        cases hrec : nthLeafAux (cs.get ⟨_, hlt⟩) n
            (start + (n - start) / (RECURSIVE_SIZE ^ rem * BATCH_SIZE)
              * (RECURSIVE_SIZE ^ rem * BATCH_SIZE)) rem with
        | crash => rw [hrec] at h; exact Res.noConfusion h
        | ok pr =>
          obtain ⟨p0, st0⟩ := pr
          rw [hrec] at h
          injection h with h2
          have h3 : (n - start) / (RECURSIVE_SIZE ^ rem * BATCH_SIZE) :: p0 = p :=
            congrArg Prod.fst h2
          rw [← h3, List.length_cons, ih _ _ _ _ _ hrec]
      · rw [dif_neg hlt] at h; exact Res.noConfusion h

/-- Claim C6 counterexample: the spec states that `get_nth_leaf_path(i)`
returns `None` when `i` is at least the number of leaves.  On the tree
built from exactly 512 leaves (one full batch), index 512 is out of
range, yet the function returns `Some [0, 1, 0]`. -/
theorem get_nth_leaf_path_beyond_leaves_counterexample :
    b512 = new_from_leafs (List.replicate 512 leafNode) 1 true ∧
    get_nth_leaf_path b512 512 = .ok (some [0, 1, 0]) :=
  ⟨rfl, by decide⟩

/-- Claim C6 (amended): on a tree of depth at least 1,
`get_nth_leaf_path` can never return `None`: whenever it returns at all
(instead of panicking on a missing child or an out-of-range index), it
returns `Some` path with one index per level, the indices being computed
with node width `RECURSIVE_SIZE ^ (depth - level - 1) * BATCH_SIZE`. -/
theorem get_nth_leaf_path_never_none (t : MerkleTree) (n : Nat) (hd : 1 ≤ t.depth)
    (r : Option (List Nat)) (hr : get_nth_leaf_path t n = .ok r) :
    ∃ p, r = some p ∧ p.length = t.depth := by
  unfold get_nth_leaf_path at hr
  cases haux : nthLeafAux t.root n 0 (t.depth - 1) with
  | crash => rw [haux] at hr; exact Res.noConfusion hr
  | ok pr =>
    obtain ⟨p, st⟩ := pr
    rw [haux] at hr
    have hlen := nthLeafAux_length_ok (t.depth - 1) t.root n 0 p st haux
    have hplen : (p ++ [n - st]).length = t.depth := by
      simp only [List.length_append, List.length_singleton, hlen]
      omega
    simp only [hplen, if_pos] at hr
    injection hr with h2
    exact ⟨p ++ [n - st], h2.symm, hplen⟩

/-- Witness for the amended C6: the concrete depth-3 single-batch tree
at leaf index 5 yields a 3-entry path, never `None`. -/
theorem get_nth_leaf_path_never_none_witness :
    ∃ p, (some [0, 0, 5] : Option (List Nat)) = some p ∧ p.length = b512Hashed.depth :=
  get_nth_leaf_path_never_none b512Hashed 5 (by decide) (some [0, 0, 5]) (by decide)

/-- Claim C8 counterexample: the spec states that a ledger fitting in a
single batch yields a tree of depth 2 (leaves plus root).
`new_from_leafs` pads the single batch chunk to `RECURSIVE_SIZE`
siblings and adds one recursive level: the depth is 3, not 2. -/
theorem single_batch_tree_depth_ne_two_counterexample :
    (new_from_leafs (List.replicate 512 leafNode) 1 true).depth = 3 ∧
    ¬ (new_from_leafs (List.replicate 512 leafNode) 1 true).depth = 2 :=
  ⟨by decide, by decide⟩

theorem chunksOf_single (k : Nat) (l : List Node) (h1 : l ≠ []) (h2 : l.length ≤ k) :
    chunksOf k l = [l] := by
  cases l with
  | nil => exact absurd rfl h1
  | cons c cs =>
    show chunksGo k (c :: cs).length (c :: cs) = [c :: cs]
    rw [show (c :: cs).length = cs.length + 1 from rfl]
    have hd : (c :: cs).drop k = [] := by
      rw [List.drop_eq_nil_iff]
      omega
    have ht : (c :: cs).take k = c :: cs := by
      apply List.take_of_length_le
      exact h2
    simp only [chunksGo, hd, ht]

/-- Claim C8 (amended): for every non-empty leaf list of at most
`BATCH_SIZE` leaves (a single batch), the tree built by
`new_from_leafs(leafs, 1, true)` has depth exactly 3: the leaves, one
recursive level holding the batch node padded with `RECURSIVE_SIZE - 1`
empty siblings, and the root. -/
theorem single_batch_tree_depth_eq_three (leafs : List Node)
    (h1 : leafs ≠ []) (h2 : leafs.length ≤ BATCH_SIZE) :
    (new_from_leafs leafs 1 true).depth = 3 := by
  obtain ⟨c, cs, rfl⟩ : ∃ c cs, leafs = c :: cs := by
    cases leafs with
    | nil => exact absurd rfl h1
    | cons c cs => exact ⟨c, cs, rfl⟩
  unfold new_from_leafs
  rw [show (c :: cs).length + 2 = (cs.length + 2) + 1 from by
    simp only [List.length_cons, Nat.add_left_cancel_iff]]
  simp only [new_from_leafs_go]
  have hc1 : chunksOf (if True then BATCH_SIZE else RECURSIVE_SIZE) (c :: cs)
      = [c :: cs] := by
    rw [if_pos trivial]
    exact chunksOf_single _ _ (by simp) h2
  simp only [hc1]
  simp
  have hc2 : chunksOf RECURSIVE_SIZE
      [Node.mk none (some (c :: cs)), Node.mk none none, Node.mk none none, Node.mk none none,
       Node.mk none none, Node.mk none none, Node.mk none none, Node.mk none none]
      = [[Node.mk none (some (c :: cs)), Node.mk none none, Node.mk none none, Node.mk none none,
          Node.mk none none, Node.mk none none, Node.mk none none, Node.mk none none]] :=
    chunksOf_single _ _ (by simp) (by simp)
  simp [hc2]

/-- Witness for the amended C8: one full batch of 512 leaves produces a
depth-3 tree. -/
theorem single_batch_tree_depth_eq_three_witness :
    (new_from_leafs (List.replicate 512 leafNode) 1 true).depth = 3 :=
  single_batch_tree_depth_eq_three (List.replicate 512 leafNode) (by simp) (by simp)

theorem allChildHashes_length :
    ∀ (cs : List Node) (hs : List (List Nat)),
      allChildHashes cs = some hs → hs.length = cs.length := by
  intro cs
  induction cs with
  | nil =>
    intro hs h
    simp only [allChildHashes] at h
    injection h with h2
    rw [← h2]
    rfl
  | cons n ns ih =>
    intro hs h
    simp only [allChildHashes] at h
    cases hn : n.hash with
    | none => rw [hn] at h; exact Option.noConfusion h
    | some h0 =>
      rw [hn] at h
      cases hns : allChildHashes ns with
      | none => rw [hns] at h; exact Option.noConfusion h
      | some hs0 =>
        rw [hns] at h
        injection h with h2
        rw [← h2, List.length_cons, List.length_cons, ih hs0 hns]

theorem allChildHashes_get :
    ∀ (cs : List Node) (hs : List (List Nat)), allChildHashes cs = some hs →
      ∀ (i : Nat) (h1 : i < cs.length) (h2 : i < hs.length),
        (cs.get ⟨i, h1⟩).hash = some (hs.get ⟨i, h2⟩) := by
  intro cs
  induction cs with
  | nil => intro hs h i h1 h2; exact absurd h1 (by simp)
  | cons n ns ih =>
    intro hs h i h1 h2
    simp only [allChildHashes] at h
    cases hn : n.hash with
    | none => rw [hn] at h; exact Option.noConfusion h
    | some h0 =>
      rw [hn] at h
      cases hns : allChildHashes ns with
      | none => rw [hns] at h; exact Option.noConfusion h
      | some hs0 =>
        rw [hns] at h
        injection h with h2eq
        subst h2eq
        cases i with
        | zero => simpa using hn
        | succ i0 =>
          exact ih hs0 hns i0 (Nat.lt_of_succ_lt_succ h1) (Nat.lt_of_succ_lt_succ h2)

theorem take_get_drop_eq (hs : List (List Nat)) (i : Nat) (h : i < hs.length) :
    hs.take i ++ hs.get ⟨i, h⟩ :: hs.drop (i + 1) = hs := by
  have hd := List.take_append_drop i hs
  rw [List.drop_eq_getElem_cons h] at hd
  simp only [List.get_eq_getElem]
  exact hd

theorem calc_merkle_cons (hashB : List (List Nat) → List Nat)
    (l r : List (List Nat)) (acc : Option MerkleProof) (x : List Nat) :
    calculate_merkle_root_hash hashB (.mk l r acc) x
      = calcOpt hashB acc (hashB (l ++ x :: r)) := by
  cases acc with
  | none => rfl
  | some p => rfl

theorem proveInclusionGo_spec (hashB : List (List Nat) → List Nat) :
    ∀ (tail : List Nat) (node : Node) (acc : Option MerkleProof)
      (nodeHash target : List Nat),
      WellHashed hashB node →
      pathToLeafB node tail target = true →
      node.hash = some nodeHash →
      ∃ r, proveInclusionGo node tail acc = .ok r ∧
        calcOpt hashB r target = calcOpt hashB acc nodeHash ∧
        (tail = [] → r = acc) ∧ (tail ≠ [] → ∃ mp, r = some mp) := by
  intro tail
  induction tail with
  | nil =>
    intro node acc nodeHash target hw hp hh
    simp only [pathToLeafB, decide_eq_true_eq] at hp
    rw [hh] at hp
    injection hp with hp2
    refine ⟨acc, rfl, by rw [hp2], fun _ => rfl, fun hne => absurd rfl hne⟩
  | cons idx rest ih =>
    intro node acc nodeHash target hw hp hh
    cases node with
    | mk h0 ch0 =>
      cases hw with
      | leaf h0 =>
        simp only [pathToLeafB, Node.children] at hp
        exact Bool.noConfusion hp
      | node h0 cs hs hch hhash hrec =>
        simp only [pathToLeafB, Node.children] at hp
        by_cases hlt : idx < cs.length
        · rw [dif_pos hlt] at hp
          have hlen : hs.length = cs.length := allChildHashes_length cs hs hch
          have hlt2 : idx < hs.length := by omega
          have hchild_wh : WellHashed hashB (cs.get ⟨idx, hlt⟩) :=
            hrec _ (List.get_mem cs idx hlt)
          have hchild_h : (cs.get ⟨idx, hlt⟩).hash = some (hs.get ⟨idx, hlt2⟩) :=
            allChildHashes_get cs hs hch idx hlt hlt2
          obtain ⟨r, hr, hcalc, hnil, hsome⟩ :=
            ih (cs.get ⟨idx, hlt⟩)
              (some (.mk (hs.take idx) (hs.drop (idx + 1)) acc))
              (hs.get ⟨idx, hlt2⟩) target hchild_wh hp hchild_h
          have hgo : proveInclusionGo (Node.mk h0 (some cs)) (idx :: rest) acc
              = proveInclusionGo (cs.get ⟨idx, hlt⟩) rest
                  (some (.mk (hs.take idx) (hs.drop (idx + 1)) acc)) := by
            simp only [proveInclusionGo, Node.children, hch]
            rw [dif_pos hlt]
          have hnodeHash : nodeHash = hashB hs := by
            rw [show (Node.mk h0 (some cs)).hash = h0 from rfl] at hh
            rw [hhash] at hh
            injection hh with hh2
            exact hh2.symm
          refine ⟨r, by rw [hgo]; exact hr, ?_, by intro hx; exact absurd hx (by simp), ?_⟩
          · rw [hcalc]
            show calculate_merkle_root_hash hashB
                (.mk (hs.take idx) (hs.drop (idx + 1)) acc) (hs.get ⟨idx, hlt2⟩)
              = calcOpt hashB acc nodeHash
            rw [calc_merkle_cons, take_get_drop_eq hs idx hlt2, hnodeHash]
          · intro hx
            rcases eq_or_ne rest ([] : List Nat) with hrest | hrest
            · exact (hnil hrest) ▸ ⟨_, rfl⟩
            · exact hsome hrest
        · rw [dif_neg hlt] at hp
          exact Bool.noConfusion hp

/-- Claim C7: Merkle inclusion round-trip.  For a tree every internal
node of which hashes its children correctly (`WellHashed`), a leaf path
reported by `get_nth_leaf_path` whose tail descends to a leaf with hash
`leafHash`, folding `calculate_merkle_root_hash` over the proof built by
`prove_inclusion` — at each level hashing left siblings, the current
hash, and right siblings — starting from `leafHash` recovers exactly the
root node's hash. -/
theorem inclusion_roundtrip (hashB : List (List Nat) → List Nat) (t : MerkleTree)
    (i i0 : Nat) (tail : List Nat) (leafHash rootHash : List Nat)
    (hwell : WellHashed hashB t.root)
    (hpath : get_nth_leaf_path t i = .ok (some (i0 :: tail)))
    (htail : tail ≠ [])
    (hleaf : pathToLeafB t.root tail leafHash = true)
    (hroot : t.root.hash = some rootHash) :
    ∃ mp, prove_inclusion t (i0 :: tail) = .ok mp ∧
      calculate_merkle_root_hash hashB mp leafHash = rootHash := by
  obtain ⟨r, hr, hcalc, -, hsome⟩ :=
    proveInclusionGo_spec hashB tail t.root none rootHash leafHash hwell hleaf hroot
  obtain ⟨mp, rfl⟩ := hsome htail
  refine ⟨mp, ?_, ?_⟩
  · simp only [prove_inclusion, hr]
  · simpa [calcOpt] using hcalc

/-- Witness for C7: on the concrete fully hashed depth-3 single-batch
tree, the path for leaf 5 round-trips to the root hash. -/
theorem inclusion_roundtrip_witness :
    ∃ mp, prove_inclusion b512Hashed [0, 0, 5] = .ok mp ∧
      calculate_merkle_root_hash testHash mp (List.replicate 31 0 ++ [3])
        = List.replicate 31 0 ++ [8] :=
  inclusion_roundtrip testHash b512Hashed 5 0 [0, 5]
    (List.replicate 31 0 ++ [3]) (List.replicate 31 0 ++ [8])
    (by
      refine WellHashed.node _ _
        (List.replicate 32 0 :: List.replicate 7 (List.replicate 31 0 ++ [9]))
        (by decide) (by decide) ?_
      intro c hc
      rcases List.mem_cons.mp hc with hb | hpad
      · rw [hb]
        refine WellHashed.node _ _
          (List.replicate 512 (List.replicate 31 0 ++ [3]))
          (by decide) (by decide) ?_
        intro c2 hc2
        rw [List.eq_of_mem_replicate hc2]
        exact WellHashed.leaf _
      · rw [List.eq_of_mem_replicate hpad]
        exact WellHashed.leaf _)
    (by decide) (by decide) (by decide) (by decide)

end PorV2
